import Mathlib

/-!
Verification of the Mora downloader core (src/mora).

Shallow embedding of the Python sources:
  * `normalize_str`           from cli.py (lines 180-188)
  * `deduplicate_tracks`      from cli.py (lines 64-82)
  * classification / reconciliation from cli.py `_handle_artist_search` (lines 278-337)
  * segment-timeline expansion and DASH assembly from downloader.py `_download_dash`
  * manifest decoding / routing from downloader.py `download_track`

Strings are modelled as `List Char` (Python `str` is a sequence of code points).
Machine integers are `Int`/`Nat`.  The Unicode tables used by `str.lower`,
`str.strip`, `unicodedata.normalize('NFD', _)` and `unicodedata.category` are
external data; they enter the embedding as an explicit `UnicodeData` record of
character-level functions, and theorems that need facts about them state those
facts as hypotheses (true of the real tables and of the trivial ASCII
instantiation used by the witnesses).
-/

namespace Mora

/-! ### Unicode collaborator -/

/-- Character-level interface to the Unicode tables used by `normalize_str`:
`lower` models `str.lower` (a code point may lower-case to several),
`isSpace` models the whitespace test of `str.strip`,
`nfd` models canonical decomposition of one code point, and
`isMn` models `unicodedata.category c == 'Mn'`. -/
structure UnicodeData where
  lower : Char → List Char
  isSpace : Char → Bool
  nfd : Char → List Char
  isMn : Char → Bool

/-- Trivial instantiation of the Unicode tables (identity lowering and
decomposition, no whitespace, no combining marks); it satisfies every
character-level hypothesis the theorems state and is used to evaluate the
embedding on concrete inputs. -/
def idU : UnicodeData where
  lower := fun c => [c]
  isSpace := fun _ => false
  nfd := fun c => [c]
  isMn := fun _ => false

/-! ### String helpers (Python semantics) -/

/-- Python `s.strip()`: drop leading and trailing whitespace. -/
def pyStrip (isSp : Char → Bool) (s : List Char) : List Char :=
  ((s.dropWhile isSp).reverse.dropWhile isSp).reverse

/-- Scan for the first closing delimiter `r`, failing on a newline (the regex
`.` never matches a newline); returns the part after the delimiter. -/
def findClose (r : Char) : List Char → Option (List Char)
  | [] => none
  | c :: cs => if c = r then some cs else if c = '\n' then none else findClose r cs

/-- Fuel-indexed core of `removeDelim`; each step consumes at least one
character, so fuel equal to the length of the input suffices. -/
def removeDelimAux (l r : Char) : Nat → List Char → List Char
  | 0, s => s
  | _ + 1, [] => []
  | fuel + 1, c :: cs =>
    if c = l then
      match findClose r cs with
      | some rest => removeDelimAux l r fuel rest
      | none => c :: removeDelimAux l r fuel cs
    else c :: removeDelimAux l r fuel cs

/-- Python `re.sub(r'\(.*?\)', '', s)` (and the bracket variant): remove each
leftmost non-greedy delimited group, i.e. from an opening delimiter to the
nearest closing delimiter with no newline in between. -/
def removeDelim (l r : Char) (s : List Char) : List Char :=
  removeDelimAux l r s.length s

/-- Characters kept by the final `re.sub(r'[^a-z0-9]', '', s)` step. -/
def isAlnumLower (c : Char) : Bool :=
  ('a' ≤ c && c ≤ 'z') || ('0' ≤ c && c ≤ '9')

/-- cli.py `normalize_str` (lines 180-188): lowercase and strip, remove
parenthesised and bracketed groups, NFD-decompose dropping combining marks,
then keep only `[a-z0-9]`. -/
def normalize_str (u : UnicodeData) (s : List Char) : List Char :=
  if s = [] then []
  else
    ((((removeDelim '[' ']'
        (removeDelim '(' ')'
          (pyStrip u.isSpace (s.flatMap u.lower)))).flatMap u.nfd).filter
            (fun c => !u.isMn c)).filter isAlnumLower)

/-! ### Data model (models.py) -/

/-- models.py `Artist` (the fields the core logic reads). -/
structure Artist where
  id : Int
  name : List Char
deriving DecidableEq

/-- models.py `Album` (the fields the core logic reads). -/
structure Album where
  id : Int
  title : List Char
deriving DecidableEq

/-- models.py `TrackSearchItem`/`TrackInfo` (the fields the core logic
reads).  `artist` and `album` are `Option`s because cli.py guards every use
with a truthiness test. -/
structure Track where
  id : Int
  title : List Char
  duration : Int
  popularity : Option Int
  artist : Option Artist
  artists : List Artist
  album : Option Album
  explicit : Option Bool
  audioQuality : Option (List Char)
  trackNumber : Option Int
deriving DecidableEq

/-- Python `t.album.title if t.album else ""`. -/
def albumTitleOrEmpty (t : Track) : List Char :=
  match t.album with
  | some al => al.title
  | none => []

/-! ### deduplicate_tracks (cli.py lines 64-82) -/

/-- The dict `qualities = \x7b"LOW": 1, "HIGH": 2, "LOSSLESS": 3,
"HI_RES_LOSSLESS": 4\x7d` read through `qualities.get(q, 0)`. -/
def qualVal (q : Option (List Char)) : Int :=
  match q with
  | none => 0
  | some s =>
    if s = "LOW".data then 1
    else if s = "HIGH".data then 2
    else if s = "LOSSLESS".data then 3
    else if s = "HI_RES_LOSSLESS".data then 4
    else 0

/-- The grouping key `(normalize_str(t.title), normalize_str(album title or
""), t.explicit)`. -/
def dedupKey (u : UnicodeData) (t : Track) : List Char × List Char × Option Bool :=
  (normalize_str u t.title, normalize_str u (albumTitleOrEmpty t), t.explicit)

/-- First value bound to a key in an association list (Python dict lookup). -/
def lookupA {κ ν : Type} [DecidableEq κ] (m : List (κ × ν)) (k : κ) : Option ν :=
  match m with
  | [] => none
  | (k', v) :: rest => if k' = k then some v else lookupA rest k

/-- Replace the value bound to a key, keeping its position (Python dict
assignment to an existing key). -/
def updateA {κ ν : Type} [DecidableEq κ] (m : List (κ × ν)) (k : κ) (v : ν) :
    List (κ × ν) :=
  match m with
  | [] => []
  | (k', v') :: rest => if k' = k then (k', v) :: rest else (k', v') :: updateA rest k v

/-- One iteration of the `for t in tracks_list` loop of `deduplicate_tracks`:
insert under a fresh key, or replace the stored record when the new record has
strictly higher quality value. -/
def dedupStep (u : UnicodeData)
    (m : List ((List Char × List Char × Option Bool) × Track)) (t : Track) :
    List ((List Char × List Char × Option Bool) × Track) :=
  let k := dedupKey u t
  match lookupA m k with
  | none => m ++ [(k, t)]
  | some cur => if qualVal t.audioQuality > qualVal cur.audioQuality then updateA m k t else m

/-- cli.py `deduplicate_tracks`: fold the tracks through an insertion-ordered
dict and return its values. -/
def deduplicate_tracks (u : UnicodeData) (ts : List Track) : List Track :=
  (ts.foldl (dedupStep u) []).map Prod.snd

/-- Keys of the input in order of first occurrence (the insertion order of the
dict built by `deduplicate_tracks`). -/
def keyFirstOcc (u : UnicodeData) (ts : List Track) : List (List Char × List Char × Option Bool) :=
  ts.foldl (fun acc t => if dedupKey u t ∈ acc then acc else acc ++ [dedupKey u t]) []

/-- All input records sharing a given key, in input order. -/
def groupOf (u : UnicodeData) (k : List Char × List Char × Option Bool)
    (ts : List Track) : List Track :=
  ts.filter (fun t => decide (dedupKey u t = k))

/-- Greatest quality value occurring in a group (quality values are
nonnegative, so 0 is a neutral seed). -/
def groupMax (g : List Track) : Int :=
  (g.map (fun t => qualVal t.audioQuality)).foldl max 0

/-- The first record of a group attaining the group's maximal quality value:
the record the claim says dedup keeps. -/
def firstMax (g : List Track) : Option Track :=
  g.find? (fun t => decide (qualVal t.audioQuality = groupMax g))

/-- Specification-side description of dedup from the claim: one record per
distinct key, in first-occurrence order, each the first-seen record of maximal
quality in its group. -/
def dedupeSpec (u : UnicodeData) (ts : List Track) : List Track :=
  (keyFirstOcc u ts).filterMap (fun k => firstMax (groupOf u k ts))

/-! ### Segment timeline expansion (downloader.py lines 94-98) -/

/-- One `<S>` element of a DASH segment timeline: duration `d` and optional
repeat count `r` (downloader.py reads `int(s.get("d"))` and
`int(s.get("r", 0))`). -/
structure SEntry where
  d : Int
  r : Option Int
deriving DecidableEq

/-- downloader.py lines 94-98: `segments.extend([d] * (int(s.get("r", 0)) + 1))`
for each timeline entry, in order.  Python `[d] * n` is empty for `n ≤ 0`,
hence the `Int.toNat`. -/
def expandTimeline (es : List SEntry) : List Int :=
  es.foldl (fun acc e => acc ++ List.replicate (e.r.getD 0 + 1).toNat e.d) []

/-- Specification-side expansion from the claim: each entry with duration `d`
and repeat count `r` (defaulting to 0) contributes exactly `r + 1` consecutive
segments of duration `d`, in entry order. -/
def expandTimelineSpec (es : List SEntry) : List Int :=
  es.flatMap (fun e => List.replicate ((e.r.getD 0).toNat + 1) e.d)

/-! ### Classification (cli.py `_handle_artist_search`, lines 291-324)

The iTunes reference sets are modelled as lists of normalized strings (only
membership is used), the verified-album-id set as a list of ids. -/

/-- cli.py lines 293-300: collect `t.album.id` for every track whose
normalized album or track title occurs in a (non-empty) reference set. -/
def verifiedAlbumIds (u : UnicodeData) (iA iT : List (List Char))
    (ts : List Track) : List Int :=
  if iA ≠ [] ∨ iT ≠ [] then
    ts.foldl (fun acc t =>
      let nAlbum := normalize_str u (albumTitleOrEmpty t)
      let nTrack := normalize_str u t.title
      if nAlbum ∈ iA ∨ nTrack ∈ iT then
        match t.album with
        | some al => if al.id ∈ acc then acc else acc ++ [al.id]
        | none => acc
      else acc) []
  else []

/-- cli.py lines 305-316, the `is_verified` computation.  The last branch is
Python `t.popularity and t.popularity >= 50`: falsy popularity (absent or 0)
short-circuits to false. -/
def isVerified (u : UnicodeData) (iA iT : List (List Char)) (vIds : List Int)
    (t : Track) : Bool :=
  if iA = [] ∧ iT = [] then
    decide (t.popularity.getD 0 ≥ 5)
  else
    let nAlbum := normalize_str u (albumTitleOrEmpty t)
    let nTrack := normalize_str u t.title
    if (match t.album with | some al => decide (al.id ∈ vIds) | none => false) then true
    else if nTrack ∈ iT then true
    else if nAlbum ∈ iA then true
    else match t.popularity with
      | none => false
      | some p => decide (p ≠ 0) && decide (p ≥ 50)

/-- Specification-side classification from the claim: empty references give
the popularity-5 rule with missing popularity read as 0; otherwise
album-id membership, then reference track title, then reference album title,
then popularity at least 50; Suspect in all remaining cases. -/
def isVerifiedSpec (u : UnicodeData) (iA iT : List (List Char)) (vIds : List Int)
    (t : Track) : Bool :=
  if iA = [] ∧ iT = [] then
    decide (t.popularity.getD 0 ≥ 5)
  else if (match t.album with | some al => decide (al.id ∈ vIds) | none => false) then true
  else if normalize_str u t.title ∈ iT then true
  else if normalize_str u (albumTitleOrEmpty t) ∈ iA then true
  else decide (t.popularity.getD 0 ≥ 50)

/-- cli.py lines 302-324: keep the verified tracks, falling back to the full
deduplicated list when none is verified. -/
def finalTracks (u : UnicodeData) (iA iT : List (List Char))
    (uniq : List Track) : List Track :=
  let vIds := verifiedAlbumIds u iA iT uniq
  let v := uniq.filter (fun t => isVerified u iA iT vIds t)
  if v = [] then uniq else v

/-! ### Reconciliation ordering (cli.py lines 326-337) -/

/-- One iteration of the `for t in final_tracks` loop of cli.py lines
327-331: record `t.popularity or 0` for the track's normalized album title
when it exceeds the value stored so far (or none is stored). -/
def albumPopsStep (u : UnicodeData) (m : List (List Char × Int)) (t : Track) :
    List (List Char × Int) :=
  match lookupA m (normalize_str u (albumTitleOrEmpty t)) with
  | none => m ++ [(normalize_str u (albumTitleOrEmpty t), t.popularity.getD 0)]
  | some cur =>
    if t.popularity.getD 0 > cur then
      updateA m (normalize_str u (albumTitleOrEmpty t)) (t.popularity.getD 0)
    else m

/-- cli.py lines 326-331: per normalized album title, the maximum over the
final tracks of `t.popularity or 0`. -/
def albumPops (u : UnicodeData) (ts : List Track) : List (List Char × Int) :=
  ts.foldl (albumPopsStep u) []

/-- Specification-side per-album popularity: the maximum of
`t.popularity or 0` over the tracks whose normalized album title is `k`
(none when no track has that key). -/
def albumMaxSpec (u : UnicodeData) (ts : List Track) (k : List Char) : Option Int :=
  match (ts.filter (fun t => decide (normalize_str u (albumTitleOrEmpty t) = k))).map
      (fun t => t.popularity.getD 0) with
  | [] => none
  | x :: xs => some (xs.foldl max x)

/-- The Python sort key tuple
`(-album_pops.get(key, 0), key, x.trackNumber or 0)` where `key` is the
normalized album title. -/
def sortKey (u : UnicodeData) (pops : List (List Char × Int)) (t : Track) :
    Int × List Char × Int :=
  (-(lookupA pops (normalize_str u (albumTitleOrEmpty t))).getD 0,
   normalize_str u (albumTitleOrEmpty t),
   t.trackNumber.getD 0)

/-- Lexicographic comparison of Python key tuples (`List Char` is compared by
the code-point lexicographic order, as Python compares `str`). -/
def keyLe (a b : Int × List Char × Int) : Prop :=
  a.1 < b.1 ∨ (a.1 = b.1 ∧ (a.2.1 < b.2.1 ∨ (a.2.1 = b.2.1 ∧ a.2.2 ≤ b.2.2)))

instance : DecidableRel keyLe := fun a b => by
  unfold keyLe; infer_instance

/-- The track ordering induced by the sort key. -/
def trackLe (u : UnicodeData) (pops : List (List Char × Int)) (a b : Track) : Prop :=
  keyLe (sortKey u pops a) (sortKey u pops b)

instance (u : UnicodeData) (pops : List (List Char × Int)) :
    DecidableRel (trackLe u pops) := fun a b => by
  unfold trackLe; infer_instance

/-- cli.py lines 333-337: `sorted(final_tracks, key=...)`.  Python `sorted` is
a stable sort by the key tuple; a stable sort by a total preorder, here
`insertionSort`. -/
def sortedTracks (u : UnicodeData) (ts : List Track) : List Track :=
  List.insertionSort (trackLe u (albumPops u ts)) ts

/-- The reconciliation tail of `_handle_artist_search`: classification with
fallback, then the sort. -/
def reconcile (u : UnicodeData) (iA iT : List (List Char))
    (uniq : List Track) : List Track :=
  sortedTracks u (finalTracks u iA iT uniq)

/-! ### Artist-identity strict filter (cli.py lines 278-286)

`track_artists = t.artists or []` aliases the record's own list whenever it is
non-empty, so the subsequent `track_artists.append(t.artist)` writes through
to the record; the embedding makes that state change explicit. -/

/-- Python `s.lower().strip()`. -/
def pyLowerStrip (u : UnicodeData) (s : List Char) : List Char :=
  pyStrip u.isSpace (s.flatMap u.lower)

/-- The local `track_artists` list after the conditional append: the record's
artists followed by the primary artist when present. -/
def trackArtistsLocal (t : Track) : List Artist :=
  t.artists ++ (match t.artist with | some a => [a] | none => [])

/-- The record as it stands after one iteration of the strict-filter loop:
when `t.artists` is non-empty (so `t.artists or []` aliases it) and
`t.artist` is present, the append mutates the record's artists list. -/
def mutatedTrack (t : Track) : Track :=
  if t.artists ≠ [] ∧ t.artist ≠ none then { t with artists := trackArtistsLocal t }
  else t

/-- The guard `a and a.name and a.id` followed by
`str(a.id) == str(artist.id) and a.name.lower().strip() == artist.name.lower().strip()`
(`str` on integers is injective, so the id comparison is integer equality). -/
def matchesArtist (u : UnicodeData) (artistId : Int) (artistName : List Char)
    (a : Artist) : Bool :=
  decide (a.name ≠ []) && decide (a.id ≠ 0) && decide (a.id = artistId) &&
    decide (pyLowerStrip u a.name = pyLowerStrip u artistName)

/-- Whether the inner `for a in track_artists` loop selects the track. -/
def strictSelect (u : UnicodeData) (artistId : Int) (artistName : List Char)
    (t : Track) : Bool :=
  (trackArtistsLocal t).any (matchesArtist u artistId artistName)

/-- The state of all iterated records after the strict-filter loop ran. -/
def strictFilterStore (ts : List Track) : List Track :=
  ts.map mutatedTrack

/-- The `strict_tracks` list built by the loop (it holds the same objects the
loop mutated). -/
def strictFilterSelected (u : UnicodeData) (artistId : Int) (artistName : List Char)
    (ts : List Track) : List Track :=
  ts.filterMap (fun t =>
    if strictSelect u artistId artistName t then some (mutatedTrack t) else none)

/-! ### Manifest decoding and routing (downloader.py `download_track`) -/

/-- Value of one character of the standard base64 alphabet. -/
def b64CharVal (c : Char) : Option Nat :=
  if 'A' ≤ c ∧ c ≤ 'Z' then some (c.toNat - 65)
  else if 'a' ≤ c ∧ c ≤ 'z' then some (c.toNat - 97 + 26)
  else if '0' ≤ c ∧ c ≤ '9' then some (c.toNat - 48 + 52)
  else if c = '+' then some 62
  else if c = '/' then some 63
  else none

/-- Reassemble bytes from 6-bit values; a trailing group of 3 or 2 values
(from one or two padding characters) yields 2 or 1 bytes. -/
def b64DecodeVals : List Nat → List Nat
  | a :: b :: c :: d :: rest =>
    let x := ((a * 64 + b) * 64 + c) * 64 + d
    x / 65536 :: x / 256 % 256 :: x % 256 :: b64DecodeVals rest
  | [a, b, c] =>
    let x := (a * 64 + b) * 64 + c
    [x / 1024, x / 4 % 256]
  | [a, b] => [(a * 64 + b) / 16]
  | [_] => []
  | [] => []

/-- Model of Python `base64.b64decode` in its default mode: characters outside
the alphabet are discarded, then the payload must be alphabet characters
followed by at most two `=` padding characters completing a multiple of four;
otherwise decoding fails (`binascii.Error`). -/
def b64decode? (s : List Char) : Option (List Nat) :=
  let kept := s.filter (fun c => (b64CharVal c).isSome || c = '=')
  let data := kept.takeWhile (fun c => !(c = '='))
  let pad := kept.drop data.length
  if pad.all (fun c => c = '=') ∧ pad.length ≤ 2 ∧ (data.length + pad.length) % 4 = 0 then
    some (b64DecodeVals (data.filterMap b64CharVal))
  else none

/-- The errors `download_track` can raise before reaching a handler (all are
`ValueError`s in the source, distinguished by their messages). -/
inductive DlError
  | emptyManifest (trackId : Int)
  | badBase64
  | unsupportedType (mime : Option (List Char))
deriving DecidableEq

/-- Which handler `download_track` routes to, with the decoded manifest bytes
it hands over. -/
inductive DlRoute
  | bts (payload : List Nat)
  | dash (payload : List Nat)
deriving DecidableEq

/-- The declared type `"application/vnd.tidal.bts"`. -/
def mimeBts : List Char := "application/vnd.tidal.bts".data

/-- The declared type `"application/dash+xml"`. -/
def mimeDash : List Char := "application/dash+xml".data

/-- downloader.py `download_track` (lines 32-48): reject an absent or empty
manifest, base64-decode it, then dispatch on the declared MIME type, failing
with an error naming the type when it is neither supported one. -/
def download_track (trackId : Int) (manifest : Option (List Char))
    (mime : Option (List Char)) : Except DlError DlRoute :=
  match manifest with
  | none => .error (.emptyManifest trackId)
  | some m =>
    if m = [] then .error (.emptyManifest trackId)
    else
      match b64decode? m with
      | none => .error .badBase64
      | some bs =>
        if mime = some mimeBts then .ok (.bts bs)
        else if mime = some mimeDash then .ok (.dash bs)
        else .error (.unsupportedType mime)

/-! ### Filesystem model and DASH segmented assembly (downloader.py 100-124)

Files are byte lists stored under string paths.  The network is an oracle
`fetch : url → Option bytes` (`None` models `requests.get` raising before the
destination file is opened, the failure mode of a dead segment source);
`urljoin` is the external `urllib.parse.urljoin` collaborator, passed in as a
function. -/

/-- File contents: a list of byte values. -/
abbrev Bytes := List Nat

/-- Filesystem state: contents stored at each path. -/
abbrev FS := List Char → Option Bytes

/-- Write (create or overwrite) a file. -/
def fsWrite (fs : FS) (p : List Char) (b : Bytes) : FS :=
  fun q => if q = p then some b else fs q

/-- os.remove. -/
def fsRemove (fs : FS) (p : List Char) : FS :=
  fun q => if q = p then none else fs q

/-- os.path.join with a directory on the left. -/
def pathJoin (dir name : List Char) : List Char := dir ++ '/' :: name

/-- The characters removed by `_sanitize_filename` (the character class of
`re.sub(r'[\\/*?:"<>|]', "", name)`). -/
def illegalFileChars : List Char := ['\\', '/', '*', '?', ':', '"', '<', '>', '|']

/-- downloader.py `_sanitize_filename`. -/
def sanitize_filename (s : List Char) : List Char :=
  s.filter (fun c => decide (c ∉ illegalFileChars))

/-- Python `str(n)` on a natural number: decimal digits. -/
def natStr (n : Nat) : List Char := Nat.toDigits 10 n

/-- Temporary initialization-segment filename, from the f-string
`"..._init.m4s"` built from the track id. -/
def initName (trackId : Nat) : List Char := natStr trackId ++ "_init.m4s".data

/-- Temporary media-segment filename, from the f-string `"..._seg_....m4s"`
built from the track id and segment index. -/
def segName (trackId i : Nat) : List Char :=
  natStr trackId ++ "_seg_".data ++ natStr i ++ ".m4s".data

/-- The sanitized output filename `"artist - title.flac"` (the DASH branch
uses the primary artist's name). -/
def dashOutName (artistName title : List Char) : List Char :=
  sanitize_filename (artistName ++ " - ".data ++ title ++ ".flac".data)

/-- Fuel-indexed core of `pyReplace`; each step consumes at least one
character. -/
def pyReplaceAux (pat rep : List Char) : Nat → List Char → List Char
  | 0, s => s
  | _ + 1, [] => []
  | fuel + 1, c :: cs =>
    if pat = (c :: cs).take pat.length then
      rep ++ pyReplaceAux pat rep fuel ((c :: cs).drop pat.length)
    else c :: pyReplaceAux pat rep fuel cs

/-- Python `s.replace(pat, rep)`: replace every non-overlapping occurrence,
left to right (for an empty pattern Python intersperses `rep` everywhere). -/
def pyReplace (s pat rep : List Char) : List Char :=
  if pat = [] then rep ++ s.flatMap (fun c => c :: rep)
  else pyReplaceAux pat rep s.length s

/-- The URL of media segment `i`:
`urljoin(base_url, media_template.replace("$Number$", str(i)))`. -/
def mediaUrlOf (urljoin : List Char → List Char → List Char)
    (baseUrl mediaTemplate : List Char) (i : Nat) : List Char :=
  urljoin baseUrl (pyReplace mediaTemplate "$Number$".data (natStr i))

/-- The `for i in range(1, len(segments) + 1)` fetch loop: download each
media segment to its temporary file, stopping (with the filesystem as it
stands) when a fetch raises. -/
def fetchLoop (fetch : List Char → Option Bytes) (urlOf pathOf : Nat → List Char) :
    List Nat → FS → Except FS FS
  | [], fs => .ok fs
  | i :: rest, fs =>
    match fetch (urlOf i) with
    | none => .error fs
    | some b => fetchLoop fetch urlOf pathOf rest (fsWrite fs (pathOf i) b)

/-- The concatenation loop: append each listed file to the open output file,
failing (with the filesystem as it stands) if a listed file is missing. -/
def concatLoop (outP : List Char) : List (List Char) → FS → Except FS FS
  | [], fs => .ok fs
  | p :: rest, fs =>
    match fs p with
    | none => .error fs
    | some b => concatLoop outP rest (fsWrite fs outP ((fs outP).getD [] ++ b))

/-- Result of a segmented assembly: the final filesystem, plus the output
path on success; an error carries the filesystem at the moment the exception
propagates. -/
inductive DashOutcome
  | ok (fs : FS) (outPath : List Char)
  | err (fs : FS)

/-- The filesystem component of an outcome. -/
def dashFS : DashOutcome → FS
  | .ok fs _ => fs
  | .err fs => fs

/-- Whether the assembly succeeded. -/
def dashIsOk : DashOutcome → Bool
  | .ok _ _ => true
  | .err _ => false

/-- The temporary files of one assemble call: the initialization segment and
the media segments `1..n`. -/
def tempPaths (outputDir : List Char) (trackId : Nat) (n : Nat) : List (List Char) :=
  pathJoin outputDir (initName trackId) ::
    (List.range' 1 n).map (fun i => pathJoin outputDir (segName trackId i))

/-- downloader.py `_download_dash`, lines 100-124 (the segmented branch,
after the timeline has been expanded into `segments`): fetch the
initialization segment, fetch media segments 1..N in ascending order into
temporary files, open the output file and concatenate initialization plus
media segments into it, then remove the temporary files.  Each fetch or read
failure propagates immediately; the removal statements run only after a
successful concatenation. -/
def download_dash_segments (fs : FS) (fetch : List Char → Option Bytes)
    (urljoin : List Char → List Char → List Char)
    (baseUrl initTemplate mediaTemplate outputDir : List Char)
    (trackId : Nat) (artistName title : List Char) (segments : List Int) :
    DashOutcome :=
  let initPath := pathJoin outputDir (initName trackId)
  match fetch (urljoin baseUrl initTemplate) with
  | none => .err fs
  | some initB =>
    let fs1 := fsWrite fs initPath initB
    let idxs := List.range' 1 segments.length
    let segPath := fun i => pathJoin outputDir (segName trackId i)
    match fetchLoop fetch (mediaUrlOf urljoin baseUrl mediaTemplate) segPath idxs fs1 with
    | .error fs2 => .err fs2
    | .ok fs2 =>
      let outPath := pathJoin outputDir (dashOutName artistName title)
      let fs3 := fsWrite fs2 outPath []
      match concatLoop outPath (initPath :: idxs.map segPath) fs3 with
      | .error fs4 => .err fs4
      | .ok fs4 =>
        let fs5 := fsRemove fs4 initPath
        let fs6 := idxs.foldl (fun f i => fsRemove f (segPath i)) fs5
        .ok fs6 outPath

/-- The per-album maximum popularity consulted by the sort for a given track:
`album_pops.get(normalized album title, 0)`. -/
def maxPopOf (u : UnicodeData) (ts : List Track) (t : Track) : Int :=
  (lookupA (albumPops u ts) (normalize_str u (albumTitleOrEmpty t))).getD 0

/-- Convenience constructor for concrete track records used in evaluations
(fields not under test are fixed). -/
def mkTrack (id : Int) (title : List Char) (pop : Option Int)
    (album : Option Album) (tn : Option Int) (aq : Option (List Char)) : Track :=
  { id := id, title := title, duration := 0, popularity := pop, artist := none,
    artists := [], album := album, explicit := some false, audioQuality := aq,
    trackNumber := tn }

end Mora

namespace Mora

/-! ## Theorems -/

/-! ### General list lemmas -/

theorem foldl_append_eq_flatMap {α β : Type} (f : α → List β) :
    ∀ (l : List α) (acc : List β),
      l.foldl (fun a e => a ++ f e) acc = acc ++ l.flatMap f
  | [], acc => by simp
  | e :: l, acc => by
    rw [List.foldl_cons, foldl_append_eq_flatMap f l (acc ++ f e)]
    simp

theorem flatMap_congr_mem {α β : Type} {f g : α → List β} :
    ∀ {l : List α}, (∀ a ∈ l, f a = g a) → l.flatMap f = l.flatMap g
  | [], _ => rfl
  | a :: l, h => by
    simp only [List.flatMap_cons]
    rw [h a (List.mem_cons_self a l),
      flatMap_congr_mem (fun b hb => h b (List.mem_cons_of_mem a hb))]

/-! ### C5: segment timeline expansion -/

/-- Claim C5: expansion of a segment timeline yields, for each entry with
duration d and repeat count r (0 when absent), exactly r + 1 consecutive
segments of duration d, in entry order.  (The hypothesis records that repeat
counts are nonnegative, as they are in DASH manifests; Python `[d] * n` and
the embedding both produce nothing for negative n.) -/
theorem C5_segment_timeline_expansion (es : List SEntry)
    (h : ∀ e ∈ es, 0 ≤ e.r.getD 0) :
    expandTimeline es = expandTimelineSpec es := by
  unfold expandTimeline expandTimelineSpec
  rw [foldl_append_eq_flatMap, List.nil_append]
  refine flatMap_congr_mem (fun e he => ?_)
  have hr := h e he
  have hc : (e.r.getD 0 + 1).toNat = (e.r.getD 0).toNat + 1 := by omega
  rw [hc]

/-- Witness for C5: the documented example timeline, two entries (duration 4
repeated twice more, then duration 5), expands to [4, 4, 4, 5]. -/
theorem C5_witness :
    expandTimeline [SEntry.mk 4 (some 2), SEntry.mk 5 none] = [4, 4, 4, 5] ∧
      expandTimeline [SEntry.mk 4 (some 2), SEntry.mk 5 none] =
        expandTimelineSpec [SEntry.mk 4 (some 2), SEntry.mk 5 none] :=
  ⟨by decide, C5_segment_timeline_expansion _ (by decide)⟩

/-! ### C2: classification -/

theorem pyTruthyAnd50 (p : Option Int) :
    (match p with
      | none => false
      | some q => decide (q ≠ 0) && decide (q ≥ 50)) =
      decide (p.getD 0 ≥ 50) := by
  cases p with
  | none => decide
  | some q =>
    by_cases hq : q = 0
    · subst hq; decide
    · simp [hq]

/-- Claim C2: classification returns Verified exactly per the documented
precedence: with both reference sets empty, popularity (missing read as 0) at
least 5; otherwise album-id membership in the verified-album-id set, else
normalized track title in the reference track set, else normalized album
title in the reference album set, else popularity at least 50; Suspect in all
remaining cases. -/
theorem C2_classification (u : UnicodeData) (iA iT : List (List Char))
    (vIds : List Int) (t : Track) :
    isVerified u iA iT vIds t = isVerifiedSpec u iA iT vIds t := by
  unfold isVerified isVerifiedSpec
  by_cases h0 : iA = [] ∧ iT = []
  · simp [h0]
  · simp only [if_neg h0]
    cases hal : (match t.album with | some al => decide (al.id ∈ vIds) | none => false) with
    | true => simp [hal]
    | false =>
      simp only [hal, Bool.false_eq_true, if_false]
      by_cases h2 : normalize_str u t.title ∈ iT
      · simp [h2]
      · simp only [if_neg h2]
        by_cases h3 : normalize_str u (albumTitleOrEmpty t) ∈ iA
        · simp [h3]
        · simp only [if_neg h3]
          exact pyTruthyAnd50 t.popularity

/-! ### C7: manifest decoding and routing -/

/-- Claim C7: download routing fails on an absent or empty encoded payload
and on invalid base64; once the payload decodes, any declared type other than
the BTS direct-URL type and the DASH XML type fails with an error naming that
declared type, and the two supported types never produce the
unsupported-type error. -/
theorem C7_manifest_routing (trackId : Int) (manifest : Option (List Char))
    (mime : Option (List Char)) :
    ((manifest = none ∨ manifest = some []) →
      download_track trackId manifest mime = .error (.emptyManifest trackId)) ∧
    (∀ s, manifest = some s → s ≠ [] → b64decode? s = none →
      download_track trackId manifest mime = .error .badBase64) ∧
    (∀ s bs, manifest = some s → s ≠ [] → b64decode? s = some bs →
      mime ≠ some mimeBts → mime ≠ some mimeDash →
      download_track trackId manifest mime = .error (.unsupportedType mime)) ∧
    ((mime = some mimeBts ∨ mime = some mimeDash) →
      ∀ m', download_track trackId manifest mime ≠ .error (.unsupportedType m')) := by
  refine ⟨?_, ?_, ?_, ?_⟩
  · rintro (rfl | rfl)
    · rfl
    · simp [download_track]
  · rintro s rfl hne hdec
    simp [download_track, hne, hdec]
  · rintro s bs rfl hne hdec hb hd
    simp [download_track, hne, hdec, hb, hd]
  · rintro hmime m'
    cases manifest with
    | none => simp [download_track]
    | some m =>
      by_cases hm : m = []
      · simp [download_track, hm]
      · cases hdec : b64decode? m with
        | none => simp [download_track, hm, hdec]
        | some bs =>
          rcases hmime with rfl | rfl
          · simp [download_track, hm, hdec]
          · have hne : (some mimeDash : Option (List Char)) ≠ some mimeBts := by decide
            simp [download_track, hm, hdec, hne]

/-- Witness for C7: a validly encoded payload with declared type
"audio/mp4" is rejected with an error naming that type. -/
theorem C7_witness :
    download_track 7 (some "QUJD".data) (some "audio/mp4".data) =
      .error (.unsupportedType (some "audio/mp4".data)) :=
  (C7_manifest_routing 7 (some "QUJD".data) (some "audio/mp4".data)).2.2.1
    "QUJD".data [65, 66, 67] rfl (by decide) (by decide) (by decide) (by decide)

/-! ### C8: empty-verified fallback -/

/-- Claim C8: when classification verifies no track of a non-empty
deduplicated set, reconciliation keeps the entire deduplicated set (the
output is a permutation of it, reordered by the final sort), so it never
returns an empty sequence solely because every track was rejected. -/
theorem C8_fallback (u : UnicodeData) (iA iT : List (List Char))
    (uniq : List Track) (hne : uniq ≠ [])
    (h : ∀ t ∈ uniq, isVerified u iA iT (verifiedAlbumIds u iA iT uniq) t = false) :
    finalTracks u iA iT uniq = uniq ∧ (reconcile u iA iT uniq).Perm uniq ∧
      reconcile u iA iT uniq ≠ [] := by
  have hf : uniq.filter (fun t => isVerified u iA iT (verifiedAlbumIds u iA iT uniq) t) = [] := by
    rw [List.filter_eq_nil_iff]
    intro a ha
    simp [h a ha]
  have hft : finalTracks u iA iT uniq = uniq := by
    unfold finalTracks
    simp [hf]
  have hperm : (reconcile u iA iT uniq).Perm uniq := by
    unfold reconcile sortedTracks
    rw [hft]
    exact List.perm_insertionSort _ _
  refine ⟨hft, hperm, fun hnil => hne ?_⟩
  have := hperm.length_eq
  rw [hnil] at this
  exact List.length_eq_zero.mp this.symm

/-- Witness for C8: one unverifiable track (popularity 1, no album, title
absent from the non-empty reference sets) survives reconciliation intact. -/
theorem C8_witness :
    finalTracks idU ["zz".data] [] [mkTrack 1 "a".data (some 1) none none none] =
        [mkTrack 1 "a".data (some 1) none none none] ∧
      (reconcile idU ["zz".data] [] [mkTrack 1 "a".data (some 1) none none none]).Perm
        [mkTrack 1 "a".data (some 1) none none none] ∧
      reconcile idU ["zz".data] [] [mkTrack 1 "a".data (some 1) none none none] ≠ [] :=
  C8_fallback idU ["zz".data] [] [mkTrack 1 "a".data (some 1) none none none]
    (by decide) (by decide)

/-! ### C9: idempotence of normalize_str -/

theorem flatMap_id_of_mem {f : Char → List Char} :
    ∀ {l : List Char}, (∀ c ∈ l, f c = [c]) → l.flatMap f = l
  | [], _ => rfl
  | c :: l, h => by
    simp only [List.flatMap_cons]
    rw [h c (List.mem_cons_self c l),
      flatMap_id_of_mem (fun b hb => h b (List.mem_cons_of_mem c hb))]
    rfl

theorem dropWhile_eq_self_of_mem {p : Char → Bool} {l : List Char}
    (h : ∀ c ∈ l, p c = false) : l.dropWhile p = l := by
  cases l with
  | nil => rfl
  | cons c cs =>
    rw [List.dropWhile_cons, h c (List.mem_cons_self c cs)]
    simp

theorem pyStrip_eq_self_of_mem {isSp : Char → Bool} {l : List Char}
    (h : ∀ c ∈ l, isSp c = false) : pyStrip isSp l = l := by
  unfold pyStrip
  rw [dropWhile_eq_self_of_mem h,
    dropWhile_eq_self_of_mem (fun c hc => h c (List.mem_reverse.mp hc)),
    List.reverse_reverse]

theorem removeDelimAux_eq_self_of_mem {d r : Char} :
    ∀ (fuel : Nat) {l : List Char}, (∀ c ∈ l, c ≠ d) →
      removeDelimAux d r fuel l = l
  | 0, _, _ => rfl
  | fuel + 1, [], _ => rfl
  | fuel + 1, c :: cs, h => by
    rw [removeDelimAux, if_neg (h c (List.mem_cons_self c cs)),
      removeDelimAux_eq_self_of_mem fuel (fun b hb => h b (List.mem_cons_of_mem c hb))]

theorem removeDelim_eq_self_of_mem {d r : Char} {l : List Char}
    (h : ∀ c ∈ l, c ≠ d) : removeDelim d r l = l :=
  removeDelimAux_eq_self_of_mem _ h

theorem mem_normalize_alnum (u : UnicodeData) (s : List Char) :
    ∀ c ∈ normalize_str u s, isAlnumLower c = true := by
  intro c hc
  unfold normalize_str at hc
  by_cases hs : s = []
  · rw [if_pos hs] at hc
    cases hc
  · rw [if_neg hs] at hc
    exact List.of_mem_filter hc

/-- Claim C9: normalize_str is idempotent.  The hypotheses state the
character-level facts about the Unicode tables on the alphabet `[a-z0-9]`
that survives normalization: such characters lower-case to themselves, are
not whitespace, decompose to themselves, and are not combining marks — true
of the real tables and of any reasonable model. -/
theorem C9_normalize_idempotent (u : UnicodeData)
    (hL : ∀ c, isAlnumLower c = true → u.lower c = [c])
    (hS : ∀ c, isAlnumLower c = true → u.isSpace c = false)
    (hN : ∀ c, isAlnumLower c = true → u.nfd c = [c])
    (hM : ∀ c, isAlnumLower c = true → u.isMn c = false)
    (s : List Char) :
    normalize_str u (normalize_str u s) = normalize_str u s := by
  have hmem := mem_normalize_alnum u s
  set t := normalize_str u s with ht
  by_cases htn : t = []
  · rw [htn]
    rfl
  · rw [normalize_str, if_neg htn]
    have h1 : t.flatMap u.lower = t :=
      flatMap_id_of_mem (fun c hc => hL c (hmem c hc))
    rw [h1, pyStrip_eq_self_of_mem (fun c hc => hS c (hmem c hc))]
    have hparen : ∀ c ∈ t, c ≠ '(' := by
      intro c hc he
      have := hmem c hc
      rw [he] at this
      exact absurd this (by decide)
    rw [removeDelim_eq_self_of_mem hparen]
    have hbrack : ∀ c ∈ t, c ≠ '[' := by
      intro c hc he
      have := hmem c hc
      rw [he] at this
      exact absurd this (by decide)
    rw [removeDelim_eq_self_of_mem hbrack]
    have h4 : t.flatMap u.nfd = t :=
      flatMap_id_of_mem (fun c hc => hN c (hmem c hc))
    rw [h4]
    have h5 : t.filter (fun c => !u.isMn c) = t := by
      rw [List.filter_eq_self]
      intro c hc
      rw [hM c (hmem c hc)]
      rfl
    rw [h5]
    rw [List.filter_eq_self]
    exact hmem

/-- Witness for C9 at a concrete string containing upper case, spaces and a
parenthetical group, under the trivial Unicode tables. -/
theorem C9_witness :
    normalize_str idU (normalize_str idU "blinding lights (remix)".data) =
      normalize_str idU "blinding lights (remix)".data :=
  C9_normalize_idempotent idU (fun _ _ => rfl) (fun _ _ => rfl) (fun _ _ => rfl)
    (fun _ _ => rfl) "blinding lights (remix)".data

/-! ### C4: reconciliation ordering -/

theorem keyLe_total (a b : Int × List Char × Int) : keyLe a b ∨ keyLe b a := by
  unfold keyLe
  rcases lt_trichotomy a.1 b.1 with h | h | h
  · exact Or.inl (Or.inl h)
  · rcases lt_trichotomy a.2.1 b.2.1 with h2 | h2 | h2
    · exact Or.inl (Or.inr ⟨h, Or.inl h2⟩)
    · rcases le_total a.2.2 b.2.2 with h3 | h3
      · exact Or.inl (Or.inr ⟨h, Or.inr ⟨h2, h3⟩⟩)
      · exact Or.inr (Or.inr ⟨h.symm, Or.inr ⟨h2.symm, h3⟩⟩)
    · exact Or.inr (Or.inr ⟨h.symm, Or.inl h2⟩)
  · exact Or.inr (Or.inl h)

theorem keyLe_trans {a b c : Int × List Char × Int}
    (h1 : keyLe a b) (h2 : keyLe b c) : keyLe a c := by
  unfold keyLe at h1 h2 ⊢
  rcases h1 with h1 | ⟨e1, h1⟩
  · rcases h2 with h2 | ⟨e2, _⟩
    · exact Or.inl (h1.trans h2)
    · exact Or.inl (lt_of_lt_of_eq h1 e2)
  · rcases h2 with h2 | ⟨e2, h2⟩
    · exact Or.inl (lt_of_eq_of_lt e1 h2)
    · refine Or.inr ⟨e1.trans e2, ?_⟩
      rcases h1 with h1 | ⟨f1, h1⟩
      · rcases h2 with h2 | ⟨f2, _⟩
        · exact Or.inl (h1.trans h2)
        · exact Or.inl (lt_of_lt_of_eq h1 f2)
      · rcases h2 with h2 | ⟨f2, h2⟩
        · exact Or.inl (lt_of_eq_of_lt f1 h2)
        · exact Or.inr ⟨f1.trans f2, h1.trans h2⟩

theorem lookupA_append {κ ν : Type} [DecidableEq κ] (m1 m2 : List (κ × ν)) (k : κ) :
    lookupA (m1 ++ m2) k =
      match lookupA m1 k with
      | some v => some v
      | none => lookupA m2 k := by
  induction m1 with
  | nil => rfl
  | cons p m1 ih =>
    obtain ⟨k', v⟩ := p
    by_cases h : k' = k
    · simp [lookupA, h]
    · simp [lookupA, h, ih]

theorem lookupA_update_self {κ ν : Type} [DecidableEq κ]
    {m : List (κ × ν)} {k : κ} {v w : ν} (h : lookupA m k = some v) :
    lookupA (updateA m k w) k = some w := by
  induction m with
  | nil => cases h
  | cons p m ih =>
    obtain ⟨k', v'⟩ := p
    by_cases hk : k' = k
    · simp [lookupA, updateA, hk]
    · rw [lookupA, if_neg hk] at h
      simp [lookupA, updateA, hk, ih h]

theorem lookupA_update_ne {κ ν : Type} [DecidableEq κ]
    (m : List (κ × ν)) {k k' : κ} (w : ν) (h : k' ≠ k) :
    lookupA (updateA m k w) k' = lookupA m k' := by
  induction m with
  | nil => rfl
  | cons p m ih =>
    obtain ⟨k0, v0⟩ := p
    by_cases hk : k0 = k
    · subst hk
      have : k0 ≠ k' := fun he => h (he ▸ rfl)
      simp [lookupA, updateA, this]
    · by_cases hk' : k0 = k'
      · simp [lookupA, updateA, hk, hk', h]
      · simp [lookupA, updateA, hk, hk', ih]

theorem updateA_keys {κ ν : Type} [DecidableEq κ]
    (m : List (κ × ν)) (k : κ) (w : ν) :
    (updateA m k w).map Prod.fst = m.map Prod.fst := by
  induction m with
  | nil => rfl
  | cons p m ih =>
    obtain ⟨k0, v0⟩ := p
    by_cases hk : k0 = k
    · simp [updateA, hk]
    · simp [updateA, hk, ih]

theorem albumMaxSpec_append (u : UnicodeData) (p : List Track) (t : Track)
    (k : List Char) :
    albumMaxSpec u (p ++ [t]) k =
      if normalize_str u (albumTitleOrEmpty t) = k then
        match albumMaxSpec u p k with
        | none => some (t.popularity.getD 0)
        | some cur => some (max cur (t.popularity.getD 0))
      else albumMaxSpec u p k := by
  unfold albumMaxSpec
  rw [List.filter_append]
  by_cases hk : normalize_str u (albumTitleOrEmpty t) = k
  · rw [if_pos hk]
    have hfil :
        List.filter (fun t' => decide (normalize_str u (albumTitleOrEmpty t') = k)) [t] =
          [t] := by
      simp [hk]
    rw [hfil, List.map_append]
    cases hg : (p.filter
        (fun t' => decide (normalize_str u (albumTitleOrEmpty t') = k))).map
        (fun t' => t'.popularity.getD 0) with
    | nil => simp
    | cons x xs => simp [List.foldl_append]
  · rw [if_neg hk]
    have hfil :
        List.filter (fun t' => decide (normalize_str u (albumTitleOrEmpty t') = k)) [t] =
          [] := by
      simp [hk]
    rw [hfil, List.append_nil]

theorem albumPops_step_inv (u : UnicodeData) (p : List Track) (t : Track)
    (m : List (List Char × Int)) (h : ∀ k, lookupA m k = albumMaxSpec u p k)
    (k : List Char) :
    lookupA (albumPopsStep u m t) k = albumMaxSpec u (p ++ [t]) k := by
  rw [albumMaxSpec_append]
  by_cases hk : normalize_str u (albumTitleOrEmpty t) = k
  · rw [if_pos hk]
    cases hcur : lookupA m (normalize_str u (albumTitleOrEmpty t)) with
    | none =>
      have hds : albumPopsStep u m t =
          m ++ [(normalize_str u (albumTitleOrEmpty t), t.popularity.getD 0)] := by
        simp only [albumPopsStep, hcur]
      have hmk : lookupA m k = none := by
        rw [← hk]
        exact hcur
      have hms : albumMaxSpec u p k = none := by
        rw [← h k]
        exact hmk
      rw [hds]
      simp only [lookupA_append, hmk, hms]
      simp [lookupA, hk]
    | some cur =>
      have hspec : albumMaxSpec u p k = some cur := by
        rw [← h k, ← hk]
        exact hcur
      simp only [hspec]
      by_cases hq : t.popularity.getD 0 > cur
      · have hds : albumPopsStep u m t =
            updateA m (normalize_str u (albumTitleOrEmpty t)) (t.popularity.getD 0) := by
          simp only [albumPopsStep, hcur, if_pos hq]
        rw [hds, hk, lookupA_update_self (hk ▸ hcur), max_eq_right (le_of_lt hq)]
      · have hds : albumPopsStep u m t = m := by
          simp only [albumPopsStep, hcur, if_neg hq]
        rw [hds, h k, hspec, max_eq_left (le_of_not_lt hq)]
  · rw [if_neg hk]
    cases hcur : lookupA m (normalize_str u (albumTitleOrEmpty t)) with
    | none =>
      have hds : albumPopsStep u m t =
          m ++ [(normalize_str u (albumTitleOrEmpty t), t.popularity.getD 0)] := by
        simp only [albumPopsStep, hcur]
      rw [hds, lookupA_append, ← h k]
      cases hmk : lookupA m k with
      | some v => simp [hmk]
      | none => simp [hmk, lookupA, hk]
    | some cur =>
      by_cases hq : t.popularity.getD 0 > cur
      · have hds : albumPopsStep u m t =
            updateA m (normalize_str u (albumTitleOrEmpty t)) (t.popularity.getD 0) := by
          simp only [albumPopsStep, hcur, if_pos hq]
        rw [hds, lookupA_update_ne _ _ (fun he => hk he.symm)]
        exact h k
      · have hds : albumPopsStep u m t = m := by
          simp only [albumPopsStep, hcur, if_neg hq]
        rw [hds]
        exact h k

theorem albumPops_inv (u : UnicodeData) :
    ∀ (ts p : List Track) (m : List (List Char × Int)),
      (∀ k, lookupA m k = albumMaxSpec u p k) →
      ∀ k, lookupA (ts.foldl (albumPopsStep u) m) k = albumMaxSpec u (p ++ ts) k
  | [], p, m, h, k => by
    rw [List.append_nil]
    exact h k
  | t :: ts, p, m, h, k => by
    rw [List.foldl_cons]
    have hrec := albumPops_inv u ts (p ++ [t]) (albumPopsStep u m t)
      (albumPops_step_inv u p t m h)
    rw [List.append_assoc, List.singleton_append] at hrec
    exact hrec k

theorem albumPops_lookup (u : UnicodeData) (ts : List Track) (k : List Char) :
    lookupA (albumPops u ts) k = albumMaxSpec u ts k := by
  have h := albumPops_inv u ts [] [] (fun _ => rfl) k
  rwa [List.nil_append] at h

/-- Claim C4: the reconciled sequence is a permutation of its input sorted by
the lexicographic key (descending per-normalized-album max popularity,
ascending normalized album title, ascending track number with missing read as
0); the per-album value the key consults is exactly the maximum of
`popularity or 0` over the album's tracks; consequently every track whose
album has max popularity 80 precedes every track whose album has max
popularity 40, regardless of input order. -/
theorem C4_reconcile_ordering (u : UnicodeData) (ts : List Track) :
    (sortedTracks u ts).Perm ts ∧
    List.Sorted (trackLe u (albumPops u ts)) (sortedTracks u ts) ∧
    (∀ k, lookupA (albumPops u ts) k = albumMaxSpec u ts k) ∧
    (∀ i j (hi : i < (sortedTracks u ts).length) (hj : j < (sortedTracks u ts).length),
      maxPopOf u ts ((sortedTracks u ts).get ⟨i, hi⟩) = 80 →
      maxPopOf u ts ((sortedTracks u ts).get ⟨j, hj⟩) = 40 → i < j) := by
  haveI : IsTotal Track (trackLe u (albumPops u ts)) := ⟨fun a b => keyLe_total _ _⟩
  haveI : IsTrans Track (trackLe u (albumPops u ts)) :=
    ⟨fun _ _ _ hab hbc => keyLe_trans hab hbc⟩
  refine ⟨List.perm_insertionSort _ _, List.sorted_insertionSort _ _,
    fun k => albumPops_lookup u ts k, ?_⟩
  intro i j hi hj h80 h40
  by_contra hij
  push_neg at hij
  have hne : i ≠ j := by
    intro he
    subst he
    rw [h80] at h40
    norm_num at h40
  have hji : j < i := lt_of_le_of_ne hij (fun e => hne e.symm)
  have hrel := (List.sorted_insertionSort (trackLe u (albumPops u ts)) ts).rel_get_of_lt
    (show (⟨j, hj⟩ : Fin (sortedTracks u ts).length) < ⟨i, hi⟩ from hji)
  unfold trackLe keyLe at hrel
  rcases hrel with hlt | ⟨heq, _⟩
  · have hlt' : -(maxPopOf u ts ((sortedTracks u ts).get ⟨j, hj⟩)) <
        -(maxPopOf u ts ((sortedTracks u ts).get ⟨i, hi⟩)) := hlt
    rw [h40, h80] at hlt'
    norm_num at hlt'
  · have heq' : -(maxPopOf u ts ((sortedTracks u ts).get ⟨j, hj⟩)) =
        -(maxPopOf u ts ((sortedTracks u ts).get ⟨i, hi⟩)) := heq
    rw [h40, h80] at heq'
    norm_num at heq'

/-- Witness for C4: two single-track albums with popularities 40 and 80,
presented 40-first; the sort is a permutation and the 80-album track
(position 0 of the sorted output) precedes the 40-album track (position 1). -/
theorem C4_witness :
    (sortedTracks idU
        [mkTrack 1 "x".data (some 40) (some (Album.mk 1 "b".data)) (some 1) none,
         mkTrack 2 "y".data (some 80) (some (Album.mk 2 "a".data)) (some 1) none]).Perm
      [mkTrack 1 "x".data (some 40) (some (Album.mk 1 "b".data)) (some 1) none,
       mkTrack 2 "y".data (some 80) (some (Album.mk 2 "a".data)) (some 1) none] ∧
    (0 : Nat) < 1 :=
  ⟨(C4_reconcile_ordering idU _).1,
    (C4_reconcile_ordering idU
      [mkTrack 1 "x".data (some 40) (some (Album.mk 1 "b".data)) (some 1) none,
       mkTrack 2 "y".data (some 80) (some (Album.mk 2 "a".data)) (some 1) none]).2.2.2
      0 1 (by decide) (by decide) (by decide) (by decide)⟩

/-! ### C3: deduplication keeps the first-seen best record per key -/

theorem keyFirstOccAux_mem (u : UnicodeData) :
    ∀ (ts : List Track) (acc : List (List Char × List Char × Option Bool))
      (k : List Char × List Char × Option Bool),
      (k ∈ ts.foldl
        (fun acc t => if dedupKey u t ∈ acc then acc else acc ++ [dedupKey u t]) acc ↔
        k ∈ acc ∨ ∃ t ∈ ts, dedupKey u t = k)
  | [], acc, k => by simp
  | t :: ts, acc, k => by
    rw [List.foldl_cons, keyFirstOccAux_mem u ts _ k]
    by_cases hm : dedupKey u t ∈ acc
    · rw [if_pos hm]
      constructor
      · rintro (h | ⟨t', ht', rfl⟩)
        · exact Or.inl h
        · exact Or.inr ⟨t', List.mem_cons_of_mem _ ht', rfl⟩
      · rintro (h | ⟨t', ht', rfl⟩)
        · exact Or.inl h
        · rcases List.mem_cons.mp ht' with rfl | ht''
          · exact Or.inl hm
          · exact Or.inr ⟨t', ht'', rfl⟩
    · rw [if_neg hm]
      constructor
      · rintro (h | ⟨t', ht', rfl⟩)
        · rcases List.mem_append.mp h with h | h
          · exact Or.inl h
          · exact Or.inr ⟨t, List.mem_cons_self _ _, (List.mem_singleton.mp h).symm⟩
        · exact Or.inr ⟨t', List.mem_cons_of_mem _ ht', rfl⟩
      · rintro (h | ⟨t', ht', rfl⟩)
        · exact Or.inl (List.mem_append.mpr (Or.inl h))
        · rcases List.mem_cons.mp ht' with rfl | ht''
          · exact Or.inl (List.mem_append.mpr (Or.inr (List.mem_singleton.mpr rfl)))
          · exact Or.inr ⟨t', ht'', rfl⟩

theorem keyFirstOcc_mem_iff (u : UnicodeData) (ts : List Track)
    (k : List Char × List Char × Option Bool) :
    k ∈ keyFirstOcc u ts ↔ ∃ t ∈ ts, dedupKey u t = k := by
  rw [keyFirstOcc, keyFirstOccAux_mem u ts [] k]
  simp

theorem keyFirstOccAux_nodup (u : UnicodeData) :
    ∀ (ts : List Track) (acc : List (List Char × List Char × Option Bool)),
      acc.Nodup →
      (ts.foldl
        (fun acc t => if dedupKey u t ∈ acc then acc else acc ++ [dedupKey u t]) acc).Nodup
  | [], _, h => h
  | t :: ts, acc, h => by
    rw [List.foldl_cons]
    by_cases hm : dedupKey u t ∈ acc
    · rw [if_pos hm]
      exact keyFirstOccAux_nodup u ts acc h
    · rw [if_neg hm]
      refine keyFirstOccAux_nodup u ts _ ?_
      refine List.Nodup.append h (List.nodup_singleton _) ?_
      intro a ha hb
      rw [List.mem_singleton.mp hb] at ha
      exact hm ha

theorem keyFirstOcc_nodup (u : UnicodeData) (ts : List Track) :
    (keyFirstOcc u ts).Nodup :=
  keyFirstOccAux_nodup u ts [] List.nodup_nil

theorem keyFirstOcc_append_singleton (u : UnicodeData) (p : List Track) (t : Track) :
    keyFirstOcc u (p ++ [t]) =
      if dedupKey u t ∈ keyFirstOcc u p then keyFirstOcc u p
      else keyFirstOcc u p ++ [dedupKey u t] := by
  unfold keyFirstOcc
  rw [List.foldl_append]
  rfl

theorem groupOf_append_singleton (u : UnicodeData)
    (k : List Char × List Char × Option Bool) (p : List Track) (t : Track) :
    groupOf u k (p ++ [t]) =
      groupOf u k p ++ if dedupKey u t = k then [t] else [] := by
  unfold groupOf
  rw [List.filter_append]
  congr 1
  by_cases h : dedupKey u t = k
  · simp [h]
  · simp [h]

theorem groupOf_eq_nil_iff (u : UnicodeData)
    (k : List Char × List Char × Option Bool) (p : List Track) :
    groupOf u k p = [] ↔ k ∉ keyFirstOcc u p := by
  rw [groupOf, List.filter_eq_nil_iff, keyFirstOcc_mem_iff]
  push_neg
  constructor
  · rintro h t ht rfl
    exact absurd (decide_eq_true rfl) (h t ht)
  · intro h t ht hd
    exact h t ht (of_decide_eq_true hd)

theorem foldl_max_le_init : ∀ (l : List Int) (a : Int), a ≤ l.foldl max a
  | [], a => le_refl a
  | b :: l, a => le_trans (le_max_left a b) (foldl_max_le_init l (max a b))

theorem le_foldl_max : ∀ (l : List Int) (a x : Int), x ∈ l → x ≤ l.foldl max a
  | [], _, _, hx => absurd hx (List.not_mem_nil _)
  | b :: l, a, x, hx => by
    rcases List.mem_cons.mp hx with rfl | hx
    · exact le_trans (le_max_right a x) (foldl_max_le_init l (max a x))
    · exact le_foldl_max l (max a b) x hx

theorem foldl_max_mem : ∀ (l : List Int) (a : Int), l.foldl max a = a ∨ l.foldl max a ∈ l
  | [], _ => Or.inl rfl
  | b :: l, a => by
    rcases foldl_max_mem l (max a b) with h | h
    · rcases max_choice a b with hm | hm
      · exact Or.inl (by rw [List.foldl_cons, h, hm])
      · exact Or.inr (by rw [List.foldl_cons, h, hm]; exact List.mem_cons_self _ _)
    · exact Or.inr (List.mem_cons_of_mem _ (by rw [List.foldl_cons]; exact h))

theorem qualVal_nonneg (q : Option (List Char)) : 0 ≤ qualVal q := by
  cases q with
  | none => norm_num [qualVal]
  | some s =>
    simp only [qualVal]
    split_ifs <;> norm_num

theorem le_groupMax {g : List Track} {x : Track} (hx : x ∈ g) :
    qualVal x.audioQuality ≤ groupMax g :=
  le_foldl_max _ _ _ (List.mem_map.mpr ⟨x, hx, rfl⟩)

theorem groupMax_append_singleton (g : List Track) (t : Track) :
    groupMax (g ++ [t]) = max (groupMax g) (qualVal t.audioQuality) := by
  unfold groupMax
  rw [List.map_append, List.foldl_append]
  rfl

theorem groupMax_exists {g : List Track} (h : g ≠ []) :
    ∃ x ∈ g, qualVal x.audioQuality = groupMax g := by
  rcases foldl_max_mem (g.map (fun t => qualVal t.audioQuality)) 0 with h0 | hmem
  · cases g with
    | nil => exact absurd rfl h
    | cons y g' =>
      refine ⟨y, List.mem_cons_self _ _, le_antisymm (le_groupMax (List.mem_cons_self _ _)) ?_⟩
      rw [groupMax, h0]
      exact qualVal_nonneg _
  · obtain ⟨x, hx, he⟩ := List.mem_map.mp hmem
    exact ⟨x, hx, he⟩

theorem find?_append_of_forall_none {α : Type} {p : α → Bool} :
    ∀ {l1 : List α} (l2 : List α), (∀ x ∈ l1, p x = false) →
      List.find? p (l1 ++ l2) = List.find? p l2
  | [], _, _ => rfl
  | a :: l1, l2, h => by
    rw [List.cons_append, List.find?_cons, h a (List.mem_cons_self _ _)]
    exact find?_append_of_forall_none l2 (fun x hx => h x (List.mem_cons_of_mem _ hx))

theorem find?_append_of_some {α : Type} {p : α → Bool} :
    ∀ {l1 : List α} (l2 : List α) {w : α}, List.find? p l1 = some w →
      List.find? p (l1 ++ l2) = some w
  | [], _, _, h => by cases h
  | a :: l1, l2, w, h => by
    rw [List.find?_cons] at h
    rw [List.cons_append, List.find?_cons]
    cases hpa : p a with
    | true => rw [hpa] at h; exact h
    | false =>
      rw [hpa] at h
      exact find?_append_of_some l2 h

theorem firstMax_eq_none_iff (g : List Track) : firstMax g = none ↔ g = [] := by
  constructor
  · intro h
    by_contra hne
    obtain ⟨x, hx, he⟩ := groupMax_exists hne
    rw [firstMax, List.find?_eq_none] at h
    exact h x hx (by simp [he])
  · rintro rfl
    rfl

theorem firstMax_singleton (t : Track) : firstMax [t] = some t := by
  have h : qualVal t.audioQuality = groupMax [t] := by
    rw [groupMax]
    exact (max_eq_right (qualVal_nonneg _)).symm
  rw [firstMax, List.find?_cons, decide_eq_true h]

theorem firstMax_append_gt {g : List Track} {t : Track}
    (h : groupMax g < qualVal t.audioQuality) :
    firstMax (g ++ [t]) = some t := by
  have hmax : groupMax (g ++ [t]) = qualVal t.audioQuality := by
    rw [groupMax_append_singleton]
    exact max_eq_right (le_of_lt h)
  rw [firstMax]
  rw [find?_append_of_forall_none _ ?hnone]
  · rw [List.find?_cons, decide_eq_true hmax.symm]
  case hnone =>
    intro x hx
    rw [decide_eq_false_iff_not]
    intro he
    have h1 : qualVal x.audioQuality ≤ groupMax g := le_groupMax hx
    rw [he, hmax] at h1
    exact absurd h1 (not_le.mpr h)

theorem firstMax_append_le {g : List Track} {t : Track} (hne : g ≠ [])
    (h : qualVal t.audioQuality ≤ groupMax g) :
    firstMax (g ++ [t]) = firstMax g := by
  have hmax : groupMax (g ++ [t]) = groupMax g := by
    rw [groupMax_append_singleton]
    exact max_eq_left h
  rw [firstMax, firstMax, hmax]
  cases hf : List.find? (fun x => decide (qualVal x.audioQuality = groupMax g)) g with
  | none =>
    obtain ⟨x, hx, he⟩ := groupMax_exists hne
    rw [List.find?_eq_none] at hf
    exact absurd (decide_eq_true he) (hf x hx)
  | some w => exact find?_append_of_some _ hf

theorem dedup_inv_step (u : UnicodeData) (p : List Track) (t : Track)
    (m : List ((List Char × List Char × Option Bool) × Track))
    (h1 : m.map Prod.fst = keyFirstOcc u p)
    (h2 : ∀ k, lookupA m k = firstMax (groupOf u k p)) :
    (dedupStep u m t).map Prod.fst = keyFirstOcc u (p ++ [t]) ∧
      ∀ k, lookupA (dedupStep u m t) k = firstMax (groupOf u k (p ++ [t])) := by
  cases hcur : lookupA m (dedupKey u t) with
  | none =>
    have hgr : groupOf u (dedupKey u t) p = [] := by
      have hh := h2 (dedupKey u t)
      rw [hcur] at hh
      exact (firstMax_eq_none_iff _).mp hh.symm
    have hnotin : dedupKey u t ∉ keyFirstOcc u p :=
      (groupOf_eq_nil_iff u _ p).mp hgr
    have hds : dedupStep u m t = m ++ [(dedupKey u t, t)] := by
      simp only [dedupStep, hcur]
    rw [hds]
    constructor
    · rw [List.map_append, h1, keyFirstOcc_append_singleton, if_neg hnotin]
      rfl
    · intro k
      rw [lookupA_append, groupOf_append_singleton]
      by_cases hk : dedupKey u t = k
      · subst hk
        rw [hcur, hgr]
        simp [lookupA, firstMax_singleton]
      · rw [if_neg hk, List.append_nil, ← h2 k]
        cases hmk : lookupA m k with
        | none =>
          have : lookupA [(dedupKey u t, t)] k = none := by
            simp [lookupA, hk]
          rw [this]
        | some v => rfl
  | some cur =>
    have hg := h2 (dedupKey u t)
    rw [hcur] at hg
    have hgne : groupOf u (dedupKey u t) p ≠ [] := by
      intro hnil
      rw [hnil] at hg
      cases hg
    have hin : dedupKey u t ∈ keyFirstOcc u p := by
      by_contra hni
      exact hgne ((groupOf_eq_nil_iff u _ p).mpr hni)
    have hcurmax : qualVal cur.audioQuality = groupMax (groupOf u (dedupKey u t) p) := by
      have hfind := List.find?_some hg.symm
      exact of_decide_eq_true hfind
    by_cases hq : qualVal t.audioQuality > qualVal cur.audioQuality
    · have hds : dedupStep u m t = updateA m (dedupKey u t) t := by
        simp only [dedupStep, hcur, if_pos hq]
      rw [hds]
      constructor
      · rw [updateA_keys, h1, keyFirstOcc_append_singleton, if_pos hin]
      · intro k
        rw [groupOf_append_singleton]
        by_cases hk : dedupKey u t = k
        · subst hk
          rw [if_pos rfl, lookupA_update_self hcur]
          exact (firstMax_append_gt (hcurmax ▸ hq)).symm
        · rw [if_neg hk, List.append_nil, lookupA_update_ne _ _ (fun he => hk he.symm)]
          exact h2 k
    · have hds : dedupStep u m t = m := by
        simp only [dedupStep, hcur, if_neg hq]
      rw [hds]
      constructor
      · rw [h1, keyFirstOcc_append_singleton, if_pos hin]
      · intro k
        rw [groupOf_append_singleton]
        by_cases hk : dedupKey u t = k
        · subst hk
          rw [if_pos rfl, hcur, hg]
          exact (firstMax_append_le hgne (hcurmax ▸ le_of_not_lt hq)).symm
        · rw [if_neg hk, List.append_nil]
          exact h2 k

theorem dedup_inv_fold (u : UnicodeData) :
    ∀ (ts p : List Track) (m : List ((List Char × List Char × Option Bool) × Track)),
      m.map Prod.fst = keyFirstOcc u p →
      (∀ k, lookupA m k = firstMax (groupOf u k p)) →
      ((ts.foldl (dedupStep u) m).map Prod.fst = keyFirstOcc u (p ++ ts) ∧
        ∀ k, lookupA (ts.foldl (dedupStep u) m) k = firstMax (groupOf u k (p ++ ts)))
  | [], p, m, h1, h2 => by
    rw [List.append_nil]
    exact ⟨h1, h2⟩
  | t :: ts, p, m, h1, h2 => by
    rw [List.foldl_cons]
    have hstep := dedup_inv_step u p t m h1 h2
    have hrec := dedup_inv_fold u ts (p ++ [t]) (dedupStep u m t) hstep.1 hstep.2
    rw [List.append_assoc, List.singleton_append] at hrec
    exact hrec

theorem filterMap_congr_mem {α β : Type} {f g : α → Option β} :
    ∀ {l : List α}, (∀ a ∈ l, f a = g a) → l.filterMap f = l.filterMap g
  | [], _ => rfl
  | a :: l, h => by
    rw [List.filterMap_cons, List.filterMap_cons, h a (List.mem_cons_self _ _),
      filterMap_congr_mem (fun b hb => h b (List.mem_cons_of_mem _ hb))]

theorem map_snd_eq_filterMap_lookupA {κ ν : Type} [DecidableEq κ] :
    ∀ (m : List (κ × ν)), (m.map Prod.fst).Nodup →
      m.map Prod.snd = (m.map Prod.fst).filterMap (lookupA m)
  | [], _ => rfl
  | (k, v) :: m, h => by
    simp only [List.map_cons] at h ⊢
    have hk : k ∉ m.map Prod.fst := (List.nodup_cons.mp h).1
    have hm : (m.map Prod.fst).Nodup := (List.nodup_cons.mp h).2
    have hself : lookupA ((k, v) :: m) k = some v := by simp [lookupA]
    rw [List.filterMap_cons, hself]
    rw [map_snd_eq_filterMap_lookupA m hm]
    congr 1
    refine filterMap_congr_mem (fun k' hk' => ?_)
    have hne : k ≠ k' := fun he => hk (he ▸ hk')
    simp [lookupA, hne]

/-- Claim C3: deduplication groups records by (normalized title, normalized
album title or empty, explicit flag) and returns, in order of first
occurrence of each distinct key, the first-seen record of maximal
audio-quality value in that key's group (ties keeping the earlier record). -/
theorem C3_deduplicate (u : UnicodeData) (ts : List Track) :
    deduplicate_tracks u ts = dedupeSpec u ts := by
  have hinv := dedup_inv_fold u ts [] [] rfl (fun _ => rfl)
  rw [List.nil_append] at hinv
  unfold deduplicate_tracks dedupeSpec
  rw [map_snd_eq_filterMap_lookupA _ (by rw [hinv.1]; exact keyFirstOcc_nodup u ts),
    hinv.1]
  exact filterMap_congr_mem (fun k _ => hinv.2 k)

/-! ### Decimal string representation of naturals is injective

`str(i)` in the temporary-filename f-strings is modelled by `Nat.toDigits 10`;
the path-distinctness arguments below need its injectivity. -/

theorem toDigitsCore_shift (f : Nat) :
    ∀ (n : Nat) (ds : List Char),
      Nat.toDigitsCore 10 f n ds = Nat.toDigitsCore 10 f n [] ++ ds := by
  induction f with
  | zero => intro n ds; rfl
  | succ f ih =>
    intro n ds
    simp only [Nat.toDigitsCore]
    by_cases h : n / 10 = 0
    · simp [h]
    · simp only [h, if_false]
      rw [ih (n / 10) (Nat.digitChar (n % 10) :: ds), ih (n / 10) [Nat.digitChar (n % 10)]]
      simp

theorem toDigitsCore_fuel (f : Nat) :
    ∀ (f' n : Nat) (ds : List Char), n < 10 ^ f → n < 10 ^ f' → 0 < f → 0 < f' →
      Nat.toDigitsCore 10 f n ds = Nat.toDigitsCore 10 f' n ds := by
  induction f with
  | zero => intro f' n ds _ _ h0 _; omega
  | succ f ih =>
    intro f' n ds hf hf' _ h0'
    cases f' with
    | zero => omega
    | succ f' =>
      simp only [Nat.toDigitsCore]
      by_cases h : n / 10 = 0
      · simp [h]
      · simp only [h, if_false]
        have hn : ¬n < 10 := by omega
        apply ih
        · rw [pow_succ] at hf
          exact (Nat.div_lt_iff_lt_mul (by norm_num)).mpr hf
        · rw [pow_succ] at hf'
          exact (Nat.div_lt_iff_lt_mul (by norm_num)).mpr hf'
        · cases f with
          | zero => rw [pow_one] at hf; omega
          | succ f => exact Nat.succ_pos _
        · cases f' with
          | zero => rw [pow_one] at hf'; omega
          | succ f' => exact Nat.succ_pos _

theorem toDigits_step (n : Nat) :
    Nat.toDigits 10 n =
      if n < 10 then [Nat.digitChar n]
      else Nat.toDigits 10 (n / 10) ++ [Nat.digitChar (n % 10)] := by
  rw [Nat.toDigits]
  simp only [Nat.toDigitsCore]
  by_cases h : n < 10
  · have hdiv : n / 10 = 0 := by omega
    simp [hdiv, Nat.mod_eq_of_lt h, h]
  · have hdiv : ¬n / 10 = 0 := by omega
    simp only [hdiv, if_false, if_neg h]
    rw [toDigitsCore_shift]
    congr 1
    rw [Nat.toDigits]
    apply toDigitsCore_fuel
    · calc n / 10 ≤ n := Nat.div_le_self n 10
        _ < 10 ^ n := Nat.lt_pow_self (by norm_num) n
    · calc n / 10 < 10 ^ (n / 10) := Nat.lt_pow_self (by norm_num) _
        _ ≤ 10 ^ (n / 10 + 1) := Nat.pow_le_pow_right (by norm_num) (Nat.le_succ _)
    · omega
    · exact Nat.succ_pos _

theorem toDigits_ne_nil (n : Nat) : Nat.toDigits 10 n ≠ [] := by
  rw [toDigits_step]
  by_cases h : n < 10 <;> simp [h]

theorem digitChar_injOn : ∀ a b : Fin 10,
    Nat.digitChar a.val = Nat.digitChar b.val → a.val = b.val := by decide

theorem toDigits_injective : ∀ m n : Nat, Nat.toDigits 10 m = Nat.toDigits 10 n → m = n := by
  intro m
  induction m using Nat.strong_induction_on with
  | _ m ih =>
    intro n h
    rw [toDigits_step m, toDigits_step n] at h
    by_cases hm : m < 10 <;> by_cases hn : n < 10
    · rw [if_pos hm, if_pos hn] at h
      have hd := (List.cons.inj h).1
      exact digitChar_injOn ⟨m, hm⟩ ⟨n, hn⟩ hd
    · rw [if_pos hm, if_neg hn] at h
      have hl := congrArg List.length h
      simp only [List.length_cons, List.length_nil, List.length_append] at hl
      have : Nat.toDigits 10 (n / 10) = [] :=
        List.length_eq_zero.mp (by omega)
      exact absurd this (toDigits_ne_nil _)
    · rw [if_neg hm, if_pos hn] at h
      have hl := congrArg List.length h
      simp only [List.length_cons, List.length_nil, List.length_append] at hl
      have : Nat.toDigits 10 (m / 10) = [] :=
        List.length_eq_zero.mp (by omega)
      exact absurd this (toDigits_ne_nil _)
    · rw [if_neg hm, if_neg hn] at h
      have h2 := congrArg List.reverse h
      simp only [List.reverse_append, List.reverse_cons, List.reverse_nil,
        List.nil_append, List.singleton_append] at h2
      obtain ⟨hd, htl⟩ := List.cons.inj h2
      have hmod : m % 10 = n % 10 := by
        exact digitChar_injOn ⟨m % 10, by omega⟩ ⟨n % 10, by omega⟩ hd
      have hdiv : m / 10 = n / 10 := by
        refine ih (m / 10) (by omega) _ (List.reverse_injective htl)
      omega

theorem natStr_injective {m n : Nat} (h : natStr m = natStr n) : m = n :=
  toDigits_injective m n h

/-! ### Path distinctness -/

theorem pathJoin_inj {dir a b : List Char} (h : pathJoin dir a = pathJoin dir b) :
    a = b :=
  (List.cons.inj (List.append_cancel_left h)).2

theorem initName_ne_segName (tid i : Nat) : initName tid ≠ segName tid i := by
  intro h
  unfold initName segName at h
  rw [List.append_assoc, List.append_assoc] at h
  have h2 := List.append_cancel_left h
  have e1 : "_init.m4s".data = ['_', 'i', 'n', 'i', 't', '.', 'm', '4', 's'] := rfl
  have e2 : "_seg_".data = ['_', 's', 'e', 'g', '_'] := rfl
  rw [e1, e2] at h2
  simp only [List.cons_append, List.nil_append] at h2
  have h3 := (List.cons.inj h2).2
  have h4 := (List.cons.inj h3).1
  exact absurd h4 (by decide)

theorem segName_inj_idx {tid i j : Nat} (h : segName tid i = segName tid j) :
    i = j := by
  unfold segName at h
  exact natStr_injective (List.append_cancel_left (List.append_cancel_right h))

theorem sanitize_append_flac (s : List Char) :
    sanitize_filename (s ++ ".flac".data) = sanitize_filename s ++ ".flac".data := by
  unfold sanitize_filename
  rw [List.filter_append]
  congr 1

theorem dashOutName_getLast (an ti : List Char) :
    (dashOutName an ti).getLast? = some 'c' := by
  unfold dashOutName
  rw [sanitize_append_flac, List.getLast?_append]
  have h : (".flac".data).getLast? = some 'c' := by decide
  rw [h, Option.or_some]

theorem initName_getLast (tid : Nat) : (initName tid).getLast? = some 's' := by
  unfold initName
  rw [List.getLast?_append]
  have h : ("_init.m4s".data).getLast? = some 's' := by decide
  rw [h, Option.or_some]

theorem segName_getLast (tid i : Nat) : (segName tid i).getLast? = some 's' := by
  unfold segName
  rw [List.getLast?_append]
  have h : (".m4s".data).getLast? = some 's' := by decide
  rw [h, Option.or_some]

theorem dashOutName_ne_initName (an ti : List Char) (tid : Nat) :
    dashOutName an ti ≠ initName tid := by
  intro h
  have hc := dashOutName_getLast an ti
  rw [h, initName_getLast] at hc
  exact absurd hc (by decide)

theorem dashOutName_ne_segName (an ti : List Char) (tid i : Nat) :
    dashOutName an ti ≠ segName tid i := by
  intro h
  have hc := dashOutName_getLast an ti
  rw [h, segName_getLast] at hc
  exact absurd hc (by decide)

/-! ### Filesystem lemmas -/

theorem fsWrite_self (fs : FS) (p : List Char) (b : Bytes) : fsWrite fs p b p = some b := by
  simp [fsWrite]

theorem fsWrite_ne (fs : FS) (p : List Char) (b : Bytes) {q : List Char} (h : q ≠ p) :
    fsWrite fs p b q = fs q := by
  simp [fsWrite, h]

theorem fsRemove_self (fs : FS) (p : List Char) : fsRemove fs p p = none := by
  simp [fsRemove]

theorem fsRemove_ne (fs : FS) (p : List Char) {q : List Char} (h : q ≠ p) :
    fsRemove fs p q = fs q := by
  simp [fsRemove, h]

theorem fetchLoop_ok {fetch : List Char → Option Bytes} {urlOf pathOf : Nat → List Char}
    {segB : Nat → Bytes} :
    ∀ (idxs : List Nat) (fs : FS), (∀ i ∈ idxs, fetch (urlOf i) = some (segB i)) →
      fetchLoop fetch urlOf pathOf idxs fs =
        .ok (idxs.foldl (fun f i => fsWrite f (pathOf i) (segB i)) fs)
  | [], fs, _ => rfl
  | i :: idxs, fs, h => by
    rw [fetchLoop, h i (List.mem_cons_self _ _), List.foldl_cons]
    exact fetchLoop_ok idxs _ (fun j hj => h j (List.mem_cons_of_mem _ hj))

theorem fetchLoop_error_preserves {fetch : List Char → Option Bytes}
    {urlOf pathOf : Nat → List Char} :
    ∀ (idxs : List Nat) (fs fs' : FS),
      fetchLoop fetch urlOf pathOf idxs fs = .error fs' →
      ∀ q, (∀ i ∈ idxs, q ≠ pathOf i) → fs' q = fs q
  | [], fs, fs', h => by cases h
  | i :: idxs, fs, fs', h => by
    rw [fetchLoop] at h
    cases hf : fetch (urlOf i) with
    | none =>
      rw [hf] at h
      cases h
      intro q _
      rfl
    | some b =>
      rw [hf] at h
      intro q hq
      rw [fetchLoop_error_preserves idxs _ fs' h q
        (fun j hj => hq j (List.mem_cons_of_mem _ hj))]
      exact fsWrite_ne fs _ b (hq i (List.mem_cons_self _ _))

theorem foldl_fsWrite_notin {pathOf : Nat → List Char} {w : Nat → Bytes} :
    ∀ (idxs : List Nat) (fs : FS) {q : List Char}, (∀ i ∈ idxs, q ≠ pathOf i) →
      (idxs.foldl (fun f i => fsWrite f (pathOf i) (w i)) fs) q = fs q
  | [], fs, _, _ => rfl
  | i :: idxs, fs, q, h => by
    rw [List.foldl_cons,
      foldl_fsWrite_notin idxs _ (fun j hj => h j (List.mem_cons_of_mem _ hj))]
    exact fsWrite_ne fs _ _ (h i (List.mem_cons_self _ _))

theorem foldl_fsWrite_mem {pathOf : Nat → List Char} {w : Nat → Bytes} :
    ∀ (idxs : List Nat) (fs : FS) {i : Nat}, idxs.Nodup → i ∈ idxs →
      (∀ j ∈ idxs, pathOf j = pathOf i → j = i) →
      (idxs.foldl (fun f j => fsWrite f (pathOf j) (w j)) fs) (pathOf i) = some (w i)
  | [], _, _, _, hm, _ => absurd hm (List.not_mem_nil _)
  | j :: idxs, fs, i, hnd, hm, hinj => by
    rw [List.foldl_cons]
    rcases List.mem_cons.mp hm with rfl | hm'
    · have hnotin : i ∉ idxs := (List.nodup_cons.mp hnd).1
      rw [foldl_fsWrite_notin idxs _ ?hne]
      · exact fsWrite_self fs _ _
      case hne =>
        intro j hj he
        exact hnotin (by
          have := hinj j (List.mem_cons_of_mem _ hj) he.symm
          rwa [this] at hj)
    · exact foldl_fsWrite_mem idxs _ (List.nodup_cons.mp hnd).2 hm'
        (fun j' hj' he => hinj j' (List.mem_cons_of_mem _ hj') he)

theorem foldl_fsRemove_notin {pathOf : Nat → List Char} :
    ∀ (idxs : List Nat) (fs : FS) {q : List Char}, (∀ i ∈ idxs, q ≠ pathOf i) →
      (idxs.foldl (fun f i => fsRemove f (pathOf i)) fs) q = fs q
  | [], fs, _, _ => rfl
  | i :: idxs, fs, q, h => by
    rw [List.foldl_cons,
      foldl_fsRemove_notin idxs _ (fun j hj => h j (List.mem_cons_of_mem _ hj))]
    exact fsRemove_ne fs _ (h i (List.mem_cons_self _ _))

theorem foldl_fsRemove_none {pathOf : Nat → List Char} :
    ∀ (idxs : List Nat) (fs : FS) {q : List Char},
      (∃ i ∈ idxs, q = pathOf i) ∨ fs q = none →
      (idxs.foldl (fun f i => fsRemove f (pathOf i)) fs) q = none
  | [], fs, q, h => by
    rcases h with ⟨i, hi, _⟩ | h
    · exact absurd hi (List.not_mem_nil _)
    · exact h
  | i :: idxs, fs, q, h => by
    rw [List.foldl_cons]
    by_cases hq : q = pathOf i
    · refine foldl_fsRemove_none idxs _ (Or.inr ?_)
      rw [hq]
      exact fsRemove_self fs _
    · refine foldl_fsRemove_none idxs _ ?_
      rcases h with ⟨j, hj, he⟩ | h
      · rcases List.mem_cons.mp hj with rfl | hj'
        · exact absurd he hq
        · exact Or.inl ⟨j, hj', he⟩
      · refine Or.inr ?_
        rw [fsRemove_ne fs _ hq]
        exact h

theorem concatLoop_ok {outP : List Char} (contents : List Char → Bytes) :
    ∀ (ps : List (List Char)) (fs : FS) (bout : Bytes), fs outP = some bout →
      (∀ p ∈ ps, p ≠ outP ∧ fs p = some (contents p)) →
      concatLoop outP ps fs =
        .ok (fsWrite fs outP (bout ++ (ps.map contents).flatten))
  | [], fs, bout, hout, _ => by
    rw [concatLoop]
    congr 1
    funext q
    by_cases hq : q = outP
    · subst hq
      simp [fsWrite, hout]
    · simp [fsWrite, hq]
  | p :: ps, fs, bout, hout, h => by
    obtain ⟨hne, hread⟩ := h p (List.mem_cons_self _ _)
    simp only [concatLoop, hread, hout, Option.getD_some]
    have hrest : ∀ q ∈ ps, q ≠ outP ∧
        (fsWrite fs outP (bout ++ contents p)) q = some (contents q) := by
      intro q hq
      obtain ⟨hne', hread'⟩ := h q (List.mem_cons_of_mem _ hq)
      exact ⟨hne', by rw [fsWrite_ne _ _ _ hne']; exact hread'⟩
    rw [concatLoop_ok contents ps _ (bout ++ contents p) (fsWrite_self fs outP _) hrest]
    congr 1
    funext q
    by_cases hq : q = outP
    · subst hq
      simp [fsWrite, List.append_assoc]
    · simp [fsWrite, hq]

theorem fetchLoop_ok_preserves {fetch : List Char → Option Bytes}
    {urlOf pathOf : Nat → List Char} :
    ∀ (idxs : List Nat) (fs fs' : FS),
      fetchLoop fetch urlOf pathOf idxs fs = .ok fs' →
      ∀ q, (∀ i ∈ idxs, q ≠ pathOf i) → fs' q = fs q
  | [], fs, fs', h => by
    cases h
    intro q _
    rfl
  | i :: idxs, fs, fs', h => by
    rw [fetchLoop] at h
    cases hf : fetch (urlOf i) with
    | none =>
      rw [hf] at h
      cases h
    | some b =>
      rw [hf] at h
      intro q hq
      rw [fetchLoop_ok_preserves idxs _ fs' h q
        (fun j hj => hq j (List.mem_cons_of_mem _ hj))]
      exact fsWrite_ne fs _ b (hq i (List.mem_cons_self _ _))

theorem concatLoop_error_preserves {outP : List Char} :
    ∀ (ps : List (List Char)) (fs fs' : FS),
      concatLoop outP ps fs = .error fs' →
      ∀ q, q ≠ outP → fs' q = fs q
  | [], fs, fs', h => by cases h
  | p :: ps, fs, fs', h => by
    simp only [concatLoop] at h
    cases hf : fs p with
    | none =>
      rw [hf] at h
      cases h
      intro q _
      rfl
    | some b =>
      rw [hf] at h
      intro q hq
      rw [concatLoop_error_preserves ps _ fs' h q hq]
      exact fsWrite_ne fs _ _ hq

/-! ### C6: byte layout of a successful segmented assembly -/

/-- Claim C6: when the initialization fetch and every media-segment fetch
1..N succeed, the assembly succeeds and the output file's bytes are exactly
the initialization bytes followed by the bytes of media segments 1..N
concatenated in ascending index order. -/
theorem C6_segmented_assembly (fs : FS) (fetch : List Char → Option Bytes)
    (urljoin : List Char → List Char → List Char)
    (baseUrl initTemplate mediaTemplate outputDir : List Char)
    (trackId : Nat) (artistName title : List Char) (segments : List Int)
    (initB : Bytes) (segB : Nat → Bytes)
    (hinit : fetch (urljoin baseUrl initTemplate) = some initB)
    (hseg : ∀ i ∈ List.range' 1 segments.length,
      fetch (mediaUrlOf urljoin baseUrl mediaTemplate i) = some (segB i)) :
    dashIsOk (download_dash_segments fs fetch urljoin baseUrl initTemplate
        mediaTemplate outputDir trackId artistName title segments) = true ∧
      dashFS (download_dash_segments fs fetch urljoin baseUrl initTemplate
        mediaTemplate outputDir trackId artistName title segments)
        (pathJoin outputDir (dashOutName artistName title)) =
        some (initB ++ ((List.range' 1 segments.length).map segB).flatten) := by
  have hio : ∀ i : Nat, pathJoin outputDir (initName trackId) ≠
      pathJoin outputDir (segName trackId i) :=
    fun i h => initName_ne_segName trackId i (pathJoin_inj h)
  have hoi : pathJoin outputDir (dashOutName artistName title) ≠
      pathJoin outputDir (initName trackId) :=
    fun h => dashOutName_ne_initName artistName title trackId (pathJoin_inj h)
  have hos : ∀ i : Nat, pathJoin outputDir (dashOutName artistName title) ≠
      pathJoin outputDir (segName trackId i) :=
    fun i h => dashOutName_ne_segName artistName title trackId i (pathJoin_inj h)
  have hsinj : ∀ i j : Nat, pathJoin outputDir (segName trackId i) =
      pathJoin outputDir (segName trackId j) → i = j :=
    fun i j h => segName_inj_idx (pathJoin_inj h)
  have h1 := @fetchLoop_ok fetch (mediaUrlOf urljoin baseUrl mediaTemplate)
    (fun i => pathJoin outputDir (segName trackId i)) segB
    (List.range' 1 segments.length)
    (fsWrite fs (pathJoin outputDir (initName trackId)) initB) hseg
  generalize hfs2 : (List.range' 1 segments.length).foldl
      (fun f i => fsWrite f (pathJoin outputDir (segName trackId i)) (segB i))
      (fsWrite fs (pathJoin outputDir (initName trackId)) initB) = fs2 at h1
  have hfs2_init : fs2 (pathJoin outputDir (initName trackId)) = some initB := by
    rw [← hfs2, foldl_fsWrite_notin _ _ (fun i _ => hio i)]
    exact fsWrite_self _ _ _
  have hfs2_seg : ∀ i ∈ List.range' 1 segments.length,
      fs2 (pathJoin outputDir (segName trackId i)) = some (segB i) := by
    intro i hi
    rw [← hfs2]
    exact foldl_fsWrite_mem _ _ (List.nodup_range' 1 segments.length) hi
      (fun j _ he => hsinj j i he)
  have hcond : ∀ p ∈ (pathJoin outputDir (initName trackId)) ::
      (List.range' 1 segments.length).map
        (fun i => pathJoin outputDir (segName trackId i)),
      p ≠ pathJoin outputDir (dashOutName artistName title) ∧
      (fsWrite fs2 (pathJoin outputDir (dashOutName artistName title)) []) p =
        some (((fsWrite fs2 (pathJoin outputDir (dashOutName artistName title)) []) p).getD []) := by
    intro p hp
    rcases List.mem_cons.mp hp with rfl | hp'
    · refine ⟨fun h => hoi h.symm, ?_⟩
      rw [fsWrite_ne _ _ _ (fun h => hoi h.symm), hfs2_init]
      rfl
    · obtain ⟨i, hi, rfl⟩ := List.mem_map.mp hp'
      refine ⟨fun h => hos i h.symm, ?_⟩
      rw [fsWrite_ne _ _ _ (fun h => hos i h.symm), hfs2_seg i hi]
      rfl
  have h2 := concatLoop_ok
    (fun p => ((fsWrite fs2 (pathJoin outputDir (dashOutName artistName title)) []) p).getD [])
    ((pathJoin outputDir (initName trackId)) ::
      (List.range' 1 segments.length).map
        (fun i => pathJoin outputDir (segName trackId i)))
    (fsWrite fs2 (pathJoin outputDir (dashOutName artistName title)) []) []
    (fsWrite_self _ _ _) hcond
  simp only [download_dash_segments, hinit, h1, h2]
  refine ⟨rfl, ?_⟩
  simp only [dashFS]
  rw [foldl_fsRemove_notin _ _ (fun i _ => hos i), fsRemove_ne _ _ hoi, fsWrite_self]
  congr 1
  rw [List.nil_append, List.map_cons, List.flatten_cons]
  rw [fsWrite_ne _ _ _ (fun h => hoi h.symm), hfs2_init]
  congr 1
  rw [List.map_map]
  refine congrArg List.flatten (List.map_congr_left (fun i hi => ?_))
  simp only [Function.comp]
  rw [fsWrite_ne _ _ _ (fun h => hos i h.symm), hfs2_seg i hi]
  rfl

/-- Witness for C6: a two-segment assembly against a mock source (init bytes
[1], segment bytes [2] and [3]) produces the output file [1, 2, 3]. -/
theorem C6_witness :
    dashFS (download_dash_segments (fun _ => none)
        (fun url => if url = "u/i".data then some [1]
          else if url = "u/m1".data then some [2]
          else if url = "u/m2".data then some [3] else none)
        (fun a b => a ++ b) "u/".data "i".data "m$Number$".data "d".data 7
        "a".data "t".data [4, 4])
      (pathJoin "d".data (dashOutName "a".data "t".data)) = some [1, 2, 3] :=
  (C6_segmented_assembly (fun _ => none)
    (fun url => if url = "u/i".data then some [1]
      else if url = "u/m1".data then some [2]
      else if url = "u/m2".data then some [3] else none)
    (fun a b => a ++ b) "u/".data "i".data "m$Number$".data "d".data 7
    "a".data "t".data [4, 4] [1] (fun i => if i = 1 then [2] else [3])
    (by decide) (by decide)).2

/-! ### C1: temporary-file lifecycle -/

/-- Claim C1 (amended): after a successful segmented assembly no temporary
segment file of that call remains; but when a later step fails, the
temporary files created so far are NOT removed before the error propagates —
in particular the initialization-segment file still holds its bytes (the
source removes temporary files only on the success path, after a successful
concatenation). -/
theorem C1_cleanup (fs : FS) (fetch : List Char → Option Bytes)
    (urljoin : List Char → List Char → List Char)
    (baseUrl initTemplate mediaTemplate outputDir : List Char)
    (trackId : Nat) (artistName title : List Char) (segments : List Int) :
    (dashIsOk (download_dash_segments fs fetch urljoin baseUrl initTemplate
        mediaTemplate outputDir trackId artistName title segments) = true →
      ∀ p ∈ tempPaths outputDir trackId segments.length,
        dashFS (download_dash_segments fs fetch urljoin baseUrl initTemplate
          mediaTemplate outputDir trackId artistName title segments) p = none) ∧
    (∀ initB, fetch (urljoin baseUrl initTemplate) = some initB →
      dashIsOk (download_dash_segments fs fetch urljoin baseUrl initTemplate
        mediaTemplate outputDir trackId artistName title segments) = false →
      dashFS (download_dash_segments fs fetch urljoin baseUrl initTemplate
        mediaTemplate outputDir trackId artistName title segments)
        (pathJoin outputDir (initName trackId)) = some initB) := by
  have hio : ∀ i : Nat, pathJoin outputDir (initName trackId) ≠
      pathJoin outputDir (segName trackId i) :=
    fun i h => initName_ne_segName trackId i (pathJoin_inj h)
  have hoi : pathJoin outputDir (initName trackId) ≠
      pathJoin outputDir (dashOutName artistName title) :=
    fun h => dashOutName_ne_initName artistName title trackId (pathJoin_inj h.symm)
  cases hf : fetch (urljoin baseUrl initTemplate) with
  | none =>
    constructor
    · intro hok
      simp only [download_dash_segments, hf, dashIsOk] at hok
      exact absurd hok (by decide)
    · intro initB hinitB
      exact absurd hinitB (by simp)
  | some b =>
    cases hl : fetchLoop fetch (mediaUrlOf urljoin baseUrl mediaTemplate)
        (fun i => pathJoin outputDir (segName trackId i))
        (List.range' 1 segments.length)
        (fsWrite fs (pathJoin outputDir (initName trackId)) b) with
    | error fs2 =>
      constructor
      · intro hok
        simp only [download_dash_segments, hf, hl, dashIsOk] at hok
        exact absurd hok (by decide)
      · intro initB hinitB _
        have hb : b = initB := Option.some.inj hinitB
        subst hb
        simp only [download_dash_segments, hf, hl, dashFS]
        rw [fetchLoop_error_preserves _ _ _ hl _ (fun i _ => hio i)]
        exact fsWrite_self _ _ _
    | ok fs2 =>
      cases hc : concatLoop (pathJoin outputDir (dashOutName artistName title))
          ((pathJoin outputDir (initName trackId)) ::
            (List.range' 1 segments.length).map
              (fun i => pathJoin outputDir (segName trackId i)))
          (fsWrite fs2 (pathJoin outputDir (dashOutName artistName title)) []) with
      | error fs4 =>
        constructor
        · intro hok
          simp only [download_dash_segments, hf, hl, hc, dashIsOk] at hok
          exact absurd hok (by decide)
        · intro initB hinitB _
          have hb : b = initB := Option.some.inj hinitB
          subst hb
          simp only [download_dash_segments, hf, hl, hc, dashFS]
          rw [concatLoop_error_preserves _ _ _ hc _ hoi,
            fsWrite_ne _ _ _ hoi,
            fetchLoop_ok_preserves _ _ _ hl _ (fun i _ => hio i)]
          exact fsWrite_self _ _ _
      | ok fs4 =>
        constructor
        · intro _ p hp
          simp only [download_dash_segments, hf, hl, hc, dashFS]
          unfold tempPaths at hp
          rcases List.mem_cons.mp hp with rfl | hp'
          · exact foldl_fsRemove_none _ _ (Or.inr (fsRemove_self _ _))
          · obtain ⟨i, hi, rfl⟩ := List.mem_map.mp hp'
            exact foldl_fsRemove_none _ _ (Or.inl ⟨i, hi, rfl⟩)
        · intro initB _ hfail
          simp only [download_dash_segments, hf, hl, hc, dashIsOk] at hfail
          exact absurd hfail (by decide)

/-- Counterexample to C1 as stated: with the second media-segment source
dead, the assembly fails, and the initialization-segment temporary file —
one of this call's temporary files, created before the failure — still holds
its bytes when the error propagates: nothing was cleaned up. -/
theorem C1_counterexample :
    dashIsOk (download_dash_segments (fun _ => none)
        (fun url => if url = "u/i".data then some [1]
          else if url = "u/m1".data then some [2] else none)
        (fun a b => a ++ b) "u/".data "i".data "m$Number$".data "d".data 7
        "a".data "t".data [4, 4]) = false ∧
    pathJoin "d".data (initName 7) ∈ tempPaths "d".data 7 2 ∧
    dashFS (download_dash_segments (fun _ => none)
        (fun url => if url = "u/i".data then some [1]
          else if url = "u/m1".data then some [2] else none)
        (fun a b => a ++ b) "u/".data "i".data "m$Number$".data "d".data 7
        "a".data "t".data [4, 4])
      (pathJoin "d".data (initName 7)) = some [1] :=
  ⟨by decide, by decide, by decide⟩

/-- Witness for C1: a successful two-segment assembly leaves neither the
initialization-segment file nor a media-segment temporary file behind. -/
theorem C1_witness :
    dashFS (download_dash_segments (fun _ => none)
        (fun url => if url = "u/i".data then some [1]
          else if url = "u/m1".data then some [2]
          else if url = "u/m2".data then some [3] else none)
        (fun a b => a ++ b) "u/".data "i".data "m$Number$".data "d".data 7
        "a".data "t".data [4, 4])
      (pathJoin "d".data (initName 7)) = none ∧
    dashFS (download_dash_segments (fun _ => none)
        (fun url => if url = "u/i".data then some [1]
          else if url = "u/m1".data then some [2]
          else if url = "u/m2".data then some [3] else none)
        (fun a b => a ++ b) "u/".data "i".data "m$Number$".data "d".data 7
        "a".data "t".data [4, 4])
      (pathJoin "d".data (segName 7 1)) = none :=
  ⟨(C1_cleanup (fun _ => none)
      (fun url => if url = "u/i".data then some [1]
        else if url = "u/m1".data then some [2]
        else if url = "u/m2".data then some [3] else none)
      (fun a b => a ++ b) "u/".data "i".data "m$Number$".data "d".data 7
      "a".data "t".data [4, 4]).1 (by decide) _ (by decide),
   (C1_cleanup (fun _ => none)
      (fun url => if url = "u/i".data then some [1]
        else if url = "u/m1".data then some [2]
        else if url = "u/m2".data then some [3] else none)
      (fun a b => a ++ b) "u/".data "i".data "m$Number$".data "d".data 7
      "a".data "t".data [4, 4]).1 (by decide) _ (by decide)⟩

/-! ### C10: record mutation in the strict filter -/

/-- Claim C10 evaluated at its failing input: the artist-identity filtering
step of reconciliation writes through the aliased artists list
(`track_artists = t.artists or []` followed by `track_artists.append(t.artist)`),
appending the primary artist to the record itself — the record's artists
field changes from one element to two. -/
theorem C10_strict_filter_mutates :
    (mutatedTrack (Track.mk 1 "s".data 0 none (some (Artist.mk 5 "x".data))
        [Artist.mk 5 "x".data] none (some false) none none)).artists =
      [Artist.mk 5 "x".data, Artist.mk 5 "x".data] ∧
    strictFilterStore [Track.mk 1 "s".data 0 none (some (Artist.mk 5 "x".data))
        [Artist.mk 5 "x".data] none (some false) none none] ≠
      [Track.mk 1 "s".data 0 none (some (Artist.mk 5 "x".data))
        [Artist.mk 5 "x".data] none (some false) none none] :=
  ⟨by decide, by decide⟩

end Mora
